import Mathlib

/-!
Verification development for a two-stage PDF-to-rules pipeline.

Stage 1 (Module1.py): per-page text extraction through an external service,
run under a worker pool, reassembled into a page-delimited markdown document.
Stage 2 (Module2.py): the markdown document is parsed back into a page map,
and rules are extracted either in a single pass or with a sliding window of
page neighborhoods followed by a consolidation call.

The external services (OpenAI chat completions) are modelled as oracles
`svc : ... → Except ε (List Char)`; a raised exception is an `Except.error`.
Text is modelled as `List Char`.  Python `re` semantics for the one pattern
used by the parser (`## Page (\d+)\n\n(.*?)(?=\n\n---\n\n|\Z)` with DOTALL)
are embedded directly: left-to-right scan, greedy digit run, lazy content
terminated by the first position where the separator follows or the input
ends (the lookahead is zero-width, so the separator is not consumed).
`\d` and `int()` are modelled over ASCII digits.
-/

def S (s : String) : List Char := s.data

/-- Python `str.strip()` whitespace test, restricted to the ASCII range. -/
def isPySpace (c : Char) : Bool :=
  c == ' ' || c == '\t' || c == '\n' || c == '\r' || c == '\x0b' || c == '\x0c'

/-- Python `str.strip()`: drop leading and trailing whitespace. -/
def pyStrip (l : List Char) : List Char :=
  ((l.dropWhile isPySpace).reverse.dropWhile isPySpace).reverse

/-- Decimal digits of a positive number, most significant first (fuel-based
so that it reduces in the kernel); `natDigitsAux f n` is `str(n)` for
`0 < n ≤ f`. -/
def natDigitsAux : Nat → Nat → List Char
  | _, 0 => []
  | 0, _ + 1 => []
  | f + 1, n + 1 => natDigitsAux f ((n + 1) / 10) ++ [Char.ofNat (48 + (n + 1) % 10)]

/-- Python `str(n)` for a natural number. -/
def natStr (n : Nat) : List Char :=
  if n = 0 then [Char.ofNat 48] else natDigitsAux n n

/-- Python `int(s)` on a string of ASCII digits. -/
def natOfDigits (ds : List Char) : Nat :=
  ds.foldl (fun a c => 10 * a + (c.toNat - 48)) 0

/-- The page-header literal of the pattern `## Page (\d+)\n\n...`. -/
def headerStr : List Char := S "## Page "

/-- The inter-page separator recognised by the lookahead `(?=\n\n---\n\n|\Z)`. -/
def sepStr : List Char := S "\n\n---\n\n"

def newline2 : List Char := S "\n\n"

/-- Attempt to match `## Page (\d+)\n\n` at the head of `s`; on success
return the parsed page number and the remainder after the two newlines. -/
def matchHeader (s : List Char) : Option (Nat × List Char) :=
  if headerStr <+: s then
    if (s.drop 8).takeWhile Char.isDigit = [] then none
    else if newline2 <+: (s.drop 8).dropWhile Char.isDigit then
      some (natOfDigits ((s.drop 8).takeWhile Char.isDigit),
            ((s.drop 8).dropWhile Char.isDigit).drop 2)
    else none
  else none

/-- The lazy group `(.*?)(?=\n\n---\n\n|\Z)`: split off the shortest prefix
after which the separator follows or the input ends.  The separator is not
consumed (zero-width lookahead). -/
def takeContent : List Char → List Char × List Char
  | [] => ([], [])
  | c :: cs =>
    if sepStr <+: (c :: cs) then ([], c :: cs)
    else
      let p := takeContent cs
      (c :: p.1, p.2)

/-- `re.findall` of the page pattern: scan left to right, at each position
try the header; on a match emit `(number, content)` and resume at the match
end.  Fuel-based (one unit per scanned position) so it reduces in the
kernel; `findall` below supplies sufficient fuel. -/
def findallF : Nat → List Char → List (Nat × List Char)
  | 0, _ => []
  | _ + 1, [] => []
  | f + 1, c :: cs =>
    match matchHeader (c :: cs) with
    | some (n, rest) =>
      let p := takeContent rest
      (n, p.1) :: findallF f p.2
    | none => findallF f cs

def findall (s : List Char) : List (Nat × List Char) := findallF s.length s

/-- Python `dict` assignment `d[k] = v`: replace the binding if the key is
present (keeping its position), else append. -/
def dictInsert : List (Nat × List Char) → Nat → List Char → List (Nat × List Char)
  | [], k, v => [(k, v)]
  | (a, b) :: t, k, v =>
    if a = k then (k, v) :: t else (a, b) :: dictInsert t k v

/-- Module2.parse_markdown_by_pages: find all page sections and build the
dictionary `pages[int(num)] = content.strip()` in match order. -/
def parse_markdown_by_pages (markdown_content : List Char) : List (Nat × List Char) :=
  (findall markdown_content).foldl (fun d p => dictInsert d p.1 (pyStrip p.2)) []

/-! ## Module 1: the page-extraction coordinator -/

/-- Module1.extract_page: one extraction request; an exception from the
service is caught and replaced by the inline failure marker. -/
def extract_page (svc : List Char → Nat → Except (List Char) (List Char))
    (img_b64 : List Char) (page_num : Nat) : Nat × List Char :=
  match svc img_b64 page_num with
  | .ok content => (page_num, content)
  | .error e => (page_num, S "[Error: " ++ e ++ S "]")

/-- Module1.extract_parallel: submit one task per page (pages numbered from
1 in image order) and collect the keyed results.  `max_workers` bounds how
many tasks are in flight at once; it affects scheduling only, never the
keyed result set, which is why it does not occur in the body. -/
def extract_parallel (svc : List Char → Nat → Except (List Char) (List Char))
    (images : List (List Char)) (max_workers : Nat) : List (Nat × List Char) :=
  ((List.range' 1 images.length).zip images).map (fun p => extract_page svc p.2 p.1)

/-- The Python dict built by `dict(f.result() for f in futures)`, read at a
key: `pages.get(i, "[Missing]")`. -/
def page_entry (pages : List (Nat × List Char)) (i : Nat) : List Char :=
  (pages.lookup i).getD (S "[Missing]")

/-- The page sections of the assembled document of Module1.pdf_to_markdown:
section `i` carries page number `i` and the extracted (or marker) text. -/
def assembled_sections (total : Nat) (pages : List (Nat × List Char)) :
    List (Nat × List Char) :=
  (List.range' 1 total).map (fun i => (i, page_entry pages i))

/-- The assembly loop of Module1.pdf_to_markdown (the page-section part of
the `md` list; the title/date preamble is surrounding glue). -/
def pdf_to_markdown_pages (total : Nat) (pages : List (Nat × List Char)) :
    List (List Char) :=
  (List.range' 1 total).flatMap
    (fun i => [S "## Page " ++ natStr i ++ S "\n\n", page_entry pages i, S "\n\n---\n\n"])

/-- The serialized page blocks, `"".join` of the assembly pieces. -/
def pdf_markdown_text (total : Nat) (pages : List (Nat × List Char)) : List Char :=
  (pdf_to_markdown_pages total pages).foldr (fun a b => a ++ b) []

/-! ## Module 2: rule extraction (single pass, sliding window, consolidation) -/

/-- One `client.chat.completions.create` request, reduced to the fields the
strategies vary: the list of (role, content) messages. -/
structure ChatCall where
  messages : List (List Char × List Char)
deriving DecidableEq

/-- The (stripped) system prompt of
Module2.extract_rules_from_markdown_single_pass. -/
def single_pass_system_prompt : List Char :=
  S "You are an expert document analyst specializing in extracting rules, guidelines, and constraints.\n\nYour task:\n1. Analyze the complete markdown document provided\n2. Identify ALL rules, guidelines, constraints, instructions, or requirements\n3. Track which pages contain each rule\n4. If a rule spans multiple pages, note the page range\n5. Preserve the complete context of each rule\n\nOutput format:\n\nDOCUMENT SUMMARY:\n<2-4 sentence overview of the document>\n\nEXTRACTED RULES:\n[Page X] Rule 1: <complete rule description>\n[Page Y-Z] Rule 2: <rule spanning pages Y to Z>\n[Page Z] Rule 3: <another rule>\n\nCROSS-PAGE OBSERVATIONS:\n<Note any rules or content that continues across multiple pages>\n\nNOTES:\n<Additional context or observations>"

/-- The single service request of the single-pass strategy. -/
def single_pass_call (markdown_content : List Char) : ChatCall :=
  ⟨[(S "system", single_pass_system_prompt),
    (S "user", S "Analyze this document and extract all rules:\n\n" ++ markdown_content)]⟩

/-- Module2.extract_rules_from_markdown_single_pass: one analysis call over
the whole document; the pair records the report and the calls issued. -/
def extract_rules_from_markdown_single_pass {ε : Type}
    (svc : ChatCall → Except ε (List Char)) (markdown_content : List Char) :
    Except ε (List Char × List ChatCall) :=
  match svc (single_pass_call markdown_content) with
  | .ok r => .ok (r, [single_pass_call markdown_content])
  | .error e => .error e

/-- The (stripped) per-window system prompt of the sliding-window strategy. -/
def window_system_prompt : List Char :=
  S "You are analyzing a section of a larger document.\n\nExtract:\n1. All rules, guidelines, and constraints in these pages\n2. Note if any rule appears incomplete (continues from previous or to next pages)\n3. Include page numbers for each rule\n\nFormat:\n[Page X] Rule: <rule text>\n\nIf incomplete:\n[Page X] INCOMPLETE: <description of what continues>"

/-- Window start: `start_page = max(1, i - 1)`. -/
def window_start (i : Nat) : Nat := max 1 (i - 1)

/-- Window end: `end_page = min(total_pages, i + 1)`. -/
def window_end (total_pages i : Nat) : Nat := min total_pages (i + 1)

/-- `window_pages = range(start_page, end_page + 1)`. -/
def window_range (total_pages i : Nat) : List Nat :=
  List.range' (window_start i) (window_end total_pages i + 1 - window_start i)

/-- The per-page blocks `f"## Page {p}\n\n{pages[p]}\n"` of one window; a
missing key raises (Python `KeyError`), modelled as `.error p`. -/
def windowBlocks (pages : List (Nat × List Char)) : List Nat → Except Nat (List (List Char))
  | [] => .ok []
  | p :: ps =>
    match pages.lookup p with
    | none => .error p
    | some c =>
      match windowBlocks pages ps with
      | .ok r => .ok ((S "## Page " ++ natStr p ++ S "\n\n" ++ c ++ S "\n") :: r)
      | .error k => .error k

/-- Python `"\n".join(...)` and the other `str.join` uses. -/
def joinSep (s : List Char) : List (List Char) → List Char
  | [] => []
  | [x] => x
  | x :: y :: t => x ++ s ++ joinSep s (y :: t)

/-- The service request for the window focused on page `i`, given the joined
window content. -/
def window_call_of (total_pages i : Nat) (combined : List Char) : ChatCall :=
  ⟨[(S "system", window_system_prompt),
    (S "user", S "Analyzing pages " ++ natStr (window_start i) ++ S "-" ++
      natStr (window_end total_pages i) ++ S ", focusing on page " ++ natStr i ++
      S ":\n\n" ++ combined)]⟩

/-- Build the window request for focus page `i` (may raise a `KeyError`). -/
def mkWindowCall (pages : List (Nat × List Char)) (total_pages i : Nat) :
    Except Nat ChatCall :=
  match windowBlocks pages (window_range total_pages i) with
  | .ok blocks => .ok (window_call_of total_pages i (joinSep (S "\n") blocks))
  | .error k => .error k

/-- An exception escaping stage 2: either the analysis service raised, or a
window page lookup raised `KeyError`. -/
inductive Stage2Err (ε : Type) where
  | svcFail (e : ε)
  | keyError (k : Nat)
deriving DecidableEq

/-- The sequential window loop: for each focus page build the window request
and call the service, accumulating `(request, response)` pairs; the first
exception aborts the loop. -/
def runWindows {ε : Type} (svc : ChatCall → Except ε (List Char))
    (pages : List (Nat × List Char)) (total_pages : Nat) :
    List Nat → Except (Stage2Err ε) (List (ChatCall × List Char))
  | [] => .ok []
  | i :: is =>
    match mkWindowCall pages total_pages i with
    | .error k => .error (.keyError k)
    | .ok call =>
      match svc call with
      | .error e => .error (.svcFail e)
      | .ok resp =>
        match runWindows svc pages total_pages is with
        | .ok rest => .ok ((call, resp) :: rest)
        | .error err => .error err

/-- Python `enumerate(xs, k)`. -/
def enumFrom {α : Type} (k : Nat) : List α → List (Nat × α)
  | [] => []
  | x :: t => (k, x) :: enumFrom (k + 1) t

/-- The labeled window reports
`f"=== WINDOW {i+1} ===\n{ext}\n"` in window order. -/
def consolidation_blocks (exts : List (List Char)) : List (List Char) :=
  (enumFrom 1 exts).map (fun p => S "=== WINDOW " ++ natStr p.1 ++ S " ===\n" ++ p.2 ++ S "\n")

/-- The consolidation prompt (an f-string, not stripped: it begins and ends
with a newline), embedding all labeled window reports joined by `"\n"`. -/
def consolidation_prompt (total_pages : Nat) (exts : List (List Char)) : List Char :=
  S "\nYou have received rule extractions from a " ++ natStr total_pages ++
  S "-page document, processed in overlapping windows.\n\nYour task:\n1. Merge duplicate rules (same rule extracted multiple times)\n2. Combine incomplete rules split across windows\n3. Remove redundancy while keeping all unique rules\n4. Create a final clean list with page references\n\nExtractions:\n\n" ++
  joinSep (S "\n") (consolidation_blocks exts) ++
  S "\n\nProvide consolidated output:\n\nDOCUMENT SUMMARY:\n<brief summary>\n\nCONSOLIDATED RULES:\n[Page X] Rule 1: <complete rule>\n[Page Y-Z] Rule 2: <rule spanning pages>\n\nNOTES:\n<Observations about cross-page rules>\n"

/-- The single consolidation request (one user message, no system message). -/
def consolidation_call (total_pages : Nat) (exts : List (List Char)) : ChatCall :=
  ⟨[(S "user", consolidation_prompt total_pages exts)]⟩

/-- The sliding-window body after the small-document fallback: all window
calls in page order, then one consolidation call over their reports. -/
def sliding_window_main {ε : Type} (svc : ChatCall → Except ε (List Char))
    (pages : List (Nat × List Char)) (total_pages : Nat) :
    Except (Stage2Err ε) (List Char × List ChatCall) :=
  match runWindows svc pages total_pages (List.range' 1 total_pages) with
  | .error err => .error err
  | .ok ws =>
    match svc (consolidation_call total_pages (ws.map Prod.snd)) with
    | .error e => .error (.svcFail e)
    | .ok final => .ok (final, ws.map Prod.fst ++ [consolidation_call total_pages (ws.map Prod.snd)])

/-- Module2.extract_rules_from_markdown_sliding_window: parse the document,
fall back to single pass for three or fewer pages, otherwise run the window
loop and consolidation. -/
def extract_rules_from_markdown_sliding_window {ε : Type}
    (svc : ChatCall → Except ε (List Char)) (markdown_content : List Char) :
    Except (Stage2Err ε) (List Char × List ChatCall) :=
  let pages := parse_markdown_by_pages markdown_content
  let total_pages := pages.length
  if total_pages ≤ 3 then
    match extract_rules_from_markdown_single_pass svc markdown_content with
    | .ok r => .ok r
    | .error e => .error (.svcFail e)
  else
    sliding_window_main svc pages total_pages

/-- The two extraction strategies. -/
inductive Strategy where
  | single_pass
  | sliding_window
deriving DecidableEq

/-- The strategy that actually runs, as a pure function of the parsed page
count and the optional caller override: the branch taken by
Module2.extract_rules_from_markdown combined with the `total_pages <= 3`
fallback inside the sliding-window function. -/
def effective_strategy (total_pages : Nat) (use_sliding_window : Option Bool) : Strategy :=
  if use_sliding_window.getD (decide (total_pages > 10)) then
    if total_pages ≤ 3 then .single_pass else .sliding_window
  else .single_pass

/-- Module2.extract_rules_from_markdown (its strategy-dispatch core: file
loading and report persistence are surrounding glue). -/
def extract_rules_from_markdown {ε : Type} (svc : ChatCall → Except ε (List Char))
    (markdown_content : List Char) (use_sliding_window : Option Bool) :
    Except (Stage2Err ε) (List Char × List ChatCall) :=
  let total_pages := (parse_markdown_by_pages markdown_content).length
  if use_sliding_window.getD (decide (total_pages > 10)) then
    extract_rules_from_markdown_sliding_window svc markdown_content
  else
    match extract_rules_from_markdown_single_pass svc markdown_content with
    | .ok r => .ok r
    | .error e => .error (.svcFail e)

/-! ## Serialization of a PageDocument (the header/separator grammar) -/

/-- One serialized page: header, two newlines, content, separator. -/
def render_page_block (i : Nat) (content : List Char) : List Char :=
  S "## Page " ++ natStr i ++ S "\n\n" ++ content ++ sepStr

/-- Serialize pages numbered from `k`. -/
def serializeFrom (k : Nat) : List (List Char) → List Char
  | [] => []
  | c :: t => render_page_block k c ++ serializeFrom (k + 1) t

/-- Serialize a PageDocument given as its content list (pages 1..P). -/
def serializePages (cs : List (List Char)) : List Char := serializeFrom 1 cs

/-- Content `c` is separator-clean: the separator does not occur in
`c ++ sepStr` before position `c.length` (so the lazy match stops exactly at
the end of `c`). -/
def noEarlySep (c : List Char) : Bool :=
  (List.range c.length).all (fun j => ! decide (sepStr <+: (c ++ sepStr).drop j))

/-! ## Concrete inputs used by the witnesses -/

def exImages : List (List Char) := [S "imgA", S "imgB", S "imgC"]

def exSvcOk : List Char → Nat → Except (List Char) (List Char) :=
  fun _ n => .ok (S "text" ++ natStr n)

def exSvcFailAt2 : List Char → Nat → Except (List Char) (List Char) :=
  fun _ n => if n = 2 then .error (S "boom") else .ok (S "text" ++ natStr n)

def ex4doc : List Char :=
  S "## Page 1\n\nA\n\n---\n\n## Page 2\n\nB\n\n---\n\n## Page 3\n\nC\n\n---\n\n## Page 4\n\nD\n\n---\n\n"

def exChatOk : ChatCall → Except (List Char) (List Char) := fun _ => .ok (S "R")

def exChatFail : ChatCall → Except (List Char) (List Char) := fun _ => .error (S "down")

def ex4log : List ChatCall :=
  match extract_rules_from_markdown_sliding_window exChatOk ex4doc with
  | .ok p => p.2
  | .error _ => []

def exW1call : ChatCall :=
  match mkWindowCall (parse_markdown_by_pages ex4doc) 4 1 with
  | .ok c => c
  | .error _ => ⟨[]⟩

def exDupDoc : List Char :=
  S "## Page 1\n\nA\n\n---\n\n## Page 1\n\nB\n\n---\n\n"

def exNoSepDoc : List Char :=
  S "## Page 1\n\nA\n\n## Page 2\n\nB"

def exSepDoc : List Char :=
  S "## Page 1\n\nA\n\n---\n\n## Page 2\n\nB"

/-! ## Helper lemmas -/

theorem lookup_cons_eq {β : Type} (k : Nat) (b : β) (t : List (Nat × β)) (a : Nat) :
    List.lookup a ((k, b) :: t) = if a = k then some b else List.lookup a t := by
  rw [List.lookup_cons]
  by_cases h : a = k
  · simp [h]
  · have hb : (a == k) = false := by simp [h]
    simp [h, hb]

theorem extract_page_fst (svc : List Char → Nat → Except (List Char) (List Char))
    (img : List Char) (i : Nat) : (extract_page svc img i).1 = i := by
  unfold extract_page
  cases svc img i <;> rfl

theorem extract_page_pair (svc : List Char → Nat → Except (List Char) (List Char))
    (img : List Char) (i : Nat) :
    extract_page svc img i = (i, (extract_page svc img i).2) := by
  unfold extract_page
  cases svc img i <;> rfl

/-! ## Claim theorems: strategy selection and window construction -/

/-- Claim C2: the effective strategy is a pure function of the parsed page
count and the optional override: with no override, single pass iff the page
count is at most 10 (10 gives single pass, 11 gives sliding window); any
document of at most three pages gets single pass whatever the override; and
the dispatcher's behavior is exactly the branch this pure function picks. -/
theorem C2_strategy_selection :
    (∀ P, effective_strategy P none = .single_pass ↔ P ≤ 10) ∧
    (effective_strategy 10 none = .single_pass ∧
      effective_strategy 11 none = .sliding_window) ∧
    (∀ P usw, P ≤ 3 → effective_strategy P usw = .single_pass) ∧
    (∀ (ε : Type) (svc : ChatCall → Except ε (List Char)) (md : List Char)
        (usw : Option Bool),
      extract_rules_from_markdown svc md usw =
        match effective_strategy (parse_markdown_by_pages md).length usw with
        | .single_pass =>
          match extract_rules_from_markdown_single_pass svc md with
          | .ok r => .ok r
          | .error e => .error (.svcFail e)
        | .sliding_window =>
          sliding_window_main svc (parse_markdown_by_pages md)
            (parse_markdown_by_pages md).length) := by
  refine ⟨?_, ⟨by decide, by decide⟩, ?_, ?_⟩
  · intro P
    unfold effective_strategy
    simp only [Option.getD]
    by_cases h10 : P > 10 <;> simp [h10] <;> omega
  · intro P usw h3
    unfold effective_strategy
    cases usw with
    | none =>
      have : ¬ P > 10 := by omega
      simp [this, h3]
    | some b =>
      cases b <;> simp [h3]
  · intro ε svc md usw
    unfold extract_rules_from_markdown effective_strategy
      extract_rules_from_markdown_sliding_window
    cases usw with
    | none =>
      by_cases h10 : (parse_markdown_by_pages md).length > 10
      · have h3 : ¬ (parse_markdown_by_pages md).length ≤ 3 := by omega
        simp [h10, h3]
      · simp [h10]
    | some b =>
      cases b with
      | false => simp
      | true =>
        by_cases h3 : (parse_markdown_by_pages md).length ≤ 3 <;> simp [h3]

theorem C2_strategy_selection_witness :
    effective_strategy 2 (some true) = .single_pass :=
  C2_strategy_selection.2.2.1 2 (some true) (by decide)

/-- Claim C6: every window for focus page `i` of a `P`-page document spans
`max(1, i-1)` to `min(P, i+1)` and never contains a page outside `1..P`;
in particular for `P = 10`: focus 1 gives pages `[1, 2]`, focus 5 gives
`[4, 5, 6]`, focus 10 gives `[9, 10]`. -/
theorem C6_window_bounds :
    (∀ total_pages i p, 1 ≤ i → i ≤ total_pages →
      p ∈ window_range total_pages i → 1 ≤ p ∧ p ≤ total_pages) ∧
    (∀ i, window_start i = max 1 (i - 1)) ∧
    (∀ total_pages i, window_end total_pages i = min total_pages (i + 1)) ∧
    window_range 10 1 = [1, 2] ∧ window_range 10 5 = [4, 5, 6] ∧
    window_range 10 10 = [9, 10] := by
  refine ⟨?_, fun _ => rfl, fun _ _ => rfl, by decide, by decide, by decide⟩
  intro total i p h1 h2 hp
  rw [window_range, List.mem_range'_1] at hp
  unfold window_start window_end at hp
  omega

theorem C6_window_bounds_witness : 1 ≤ 4 ∧ 4 ≤ 10 :=
  C6_window_bounds.1 10 5 4 (by decide) (by decide) (by decide)

/-! ## Module 1 coordinator lemmas -/

theorem lookup_perm {β : Type} {l l' : List (Nat × β)} (h : l.Perm l')
    (hn : (l.map Prod.fst).Nodup) (k : Nat) : l.lookup k = l'.lookup k := by
  induction h with
  | nil => rfl
  | cons x h ih =>
    obtain ⟨a, b⟩ := x
    rw [lookup_cons_eq, lookup_cons_eq]
    by_cases hk : k = a
    · simp [hk]
    · rw [List.map_cons, List.nodup_cons] at hn
      simp only [hk, if_false]
      exact ih hn.2
  | swap x y l =>
    obtain ⟨a, b⟩ := x
    obtain ⟨c, d⟩ := y
    have hne : c ≠ a := by
      rw [List.map_cons, List.map_cons, List.nodup_cons] at hn
      intro hca
      exact hn.1 (by simp [hca])
    rw [lookup_cons_eq, lookup_cons_eq, lookup_cons_eq, lookup_cons_eq]
    by_cases h1 : k = c <;> by_cases h2 : k = a
    · exact absurd (h1.symm.trans h2) hne
    · simp [h1, h2, hne]
    · simp [h1, h2]
      intro hac
      exact absurd hac (Ne.symm hne)
    · simp [h1, h2]
  | trans h1 h2 ih1 ih2 =>
    rename_i l1 l2 l3
    have hn2 : (l2.map Prod.fst).Nodup := ((h1.map Prod.fst).nodup_iff).mp hn
    exact (ih1 hn).trans (ih2 hn2)

theorem extract_parallel_zip_lookup (svc : List Char → Nat → Except (List Char) (List Char)) :
    ∀ (imgs : List (List Char)) (k j : Nat), k ≤ j → j < k + imgs.length →
    (((List.range' k imgs.length).zip imgs).map
        (fun p => extract_page svc p.2 p.1)).lookup j =
      some ((extract_page svc (imgs.getD (j - k) []) j).2) := by
  intro imgs
  induction imgs with
  | nil => intro k j h1 h2; rw [List.length_nil] at h2; omega
  | cons img t ih =>
    intro k j h1 h2
    rw [List.length_cons, List.range'_succ, List.zip_cons_cons, List.map_cons]
    rw [extract_page_pair svc img k, lookup_cons_eq]
    by_cases hk : j = k
    · subst hk
      rw [if_pos rfl, Nat.sub_self, List.getD_cons_zero]
    · have hk1 : k + 1 ≤ j := by omega
      rw [if_neg hk]
      have := ih (k + 1) j hk1 (by rw [List.length_cons] at h2; omega)
      rw [this]
      have harith : j - k = (j - (k + 1)) + 1 := by omega
      rw [harith, List.getD_cons_succ]

theorem extract_parallel_lookup (svc : List Char → Nat → Except (List Char) (List Char))
    (images : List (List Char)) (W j : Nat) (h1 : 1 ≤ j) (h2 : j ≤ images.length) :
    (extract_parallel svc images W).lookup j =
      some ((extract_page svc (images.getD (j - 1) []) j).2) := by
  unfold extract_parallel
  exact extract_parallel_zip_lookup svc images 1 j h1 (by omega)

theorem extract_parallel_map_fst (svc : List Char → Nat → Except (List Char) (List Char))
    (images : List (List Char)) (W : Nat) :
    (extract_parallel svc images W).map Prod.fst = List.range' 1 images.length := by
  unfold extract_parallel
  rw [List.map_map]
  have : (Prod.fst ∘ fun p : Nat × List Char => extract_page svc p.2 p.1) =
      fun p : Nat × List Char => p.1 := by
    funext p
    exact extract_page_fst svc p.2 p.1
  rw [this]
  have hlen : (List.range' 1 images.length).length ≤ images.length :=
    (List.length_range' 1 1 images.length).le
  calc ((List.range' 1 images.length).zip images).map (fun p : Nat × List Char => p.1)
      = ((List.range' 1 images.length).zip images).map Prod.fst := rfl
    _ = List.range' 1 images.length := List.map_fst_zip _ _ hlen

/-! ## Claim theorems: the page-extraction coordinator -/

/-- Claim C1: for any `N` page images and any worker bound `W` with
`1 ≤ W ≤ N`, the coordinator's keyed results cover exactly the page numbers
`1..N` in order, the assembled document has exactly `N` page sections with
strictly increasing page numbers `1..N`, and both the sections and the
serialized document are unchanged under any permutation of the keyed result
list (assembly depends only on the page-number-keyed map, not on completion
order). -/
theorem C1_coordinator_assembly (svc : List Char → Nat → Except (List Char) (List Char))
    (images : List (List Char)) (W : Nat) (hW1 : 1 ≤ W) (hW2 : W ≤ images.length) :
    ((extract_parallel svc images W).map Prod.fst = List.range' 1 images.length) ∧
    ((assembled_sections images.length (extract_parallel svc images W)).map Prod.fst =
      List.range' 1 images.length) ∧
    ((assembled_sections images.length (extract_parallel svc images W)).length =
      images.length) ∧
    (∀ results', results'.Perm (extract_parallel svc images W) →
      assembled_sections images.length results' =
        assembled_sections images.length (extract_parallel svc images W) ∧
      pdf_markdown_text images.length results' =
        pdf_markdown_text images.length (extract_parallel svc images W)) := by
  refine ⟨extract_parallel_map_fst svc images W, ?_, ?_, ?_⟩
  · unfold assembled_sections
    rw [List.map_map]
    have hcomp : (Prod.fst ∘ fun i : Nat =>
        (i, page_entry (extract_parallel svc images W) i)) = id := rfl
    rw [hcomp, List.map_id]
  · unfold assembled_sections
    rw [List.length_map, List.length_range']
  · intro results' hperm
    have hnod : (results'.map Prod.fst).Nodup := by
      have h1 : (results'.map Prod.fst).Perm ((extract_parallel svc images W).map Prod.fst) :=
        hperm.map Prod.fst
      rw [h1.nodup_iff, extract_parallel_map_fst]
      exact List.nodup_range' _ _
    have hlook : ∀ i, results'.lookup i = (extract_parallel svc images W).lookup i :=
      fun i => lookup_perm hperm hnod i
    have hentry : ∀ i, page_entry results' i = page_entry (extract_parallel svc images W) i := by
      intro i
      unfold page_entry
      rw [hlook]
    constructor
    · unfold assembled_sections
      exact List.map_congr_left (fun i _ => by rw [hentry])
    · unfold pdf_markdown_text pdf_to_markdown_pages
      congr 1
      rw [List.flatMap_def, List.flatMap_def]
      congr 1
      exact List.map_congr_left (fun i _ => by rw [hentry])

theorem C1_coordinator_assembly_witness :
    (extract_parallel exSvcOk exImages 2).map Prod.fst = List.range' 1 3 :=
  (C1_coordinator_assembly exSvcOk exImages 2 (by decide) (by decide)).1

/-- Claim C5: if the extraction call for page `k` raises with cause `e`, the
coordinator's entry for page `k` is the failure marker `[Error: <cause>]`,
every page's entry (in particular every other page's) is exactly what its
own extraction produced, the coordinator itself still returns normally (the
exception is caught inside `extract_page`), and its keyed output still
covers all `N` pages. -/
theorem C5_failure_isolation (svc : List Char → Nat → Except (List Char) (List Char))
    (images : List (List Char)) (W k : Nat) (e : List Char)
    (h1 : 1 ≤ k) (h2 : k ≤ images.length)
    (hfail : svc (images.getD (k - 1) []) k = .error e) :
    (extract_parallel svc images W).lookup k = some (S "[Error: " ++ e ++ S "]") ∧
    (∀ j t, 1 ≤ j → j ≤ images.length → svc (images.getD (j - 1) []) j = .ok t →
      (extract_parallel svc images W).lookup j = some t) ∧
    (extract_parallel svc images W).length = images.length ∧
    (extract_parallel svc images W).map Prod.fst = List.range' 1 images.length := by
  refine ⟨?_, ?_, ?_, extract_parallel_map_fst svc images W⟩
  · rw [extract_parallel_lookup svc images W k h1 h2]
    unfold extract_page
    rw [hfail]
  · intro j t hj1 hj2 hok
    rw [extract_parallel_lookup svc images W j hj1 hj2]
    unfold extract_page
    rw [hok]
  · unfold extract_parallel
    rw [List.length_map, List.length_zip, List.length_range']
    exact Nat.min_self _

theorem C5_failure_isolation_witness :
    (extract_parallel exSvcFailAt2 exImages 2).lookup 2 =
      some (S "[Error: " ++ S "boom" ++ S "]") :=
  (C5_failure_isolation exSvcFailAt2 exImages 2 2 (S "boom")
    (by decide) (by decide) (by rfl)).1

/-! ## Parser dictionary semantics -/

theorem dictInsert_lookup (d : List (Nat × List Char)) (k : Nat) (v : List Char) (n : Nat) :
    (dictInsert d k v).lookup n = if n = k then some v else d.lookup n := by
  induction d with
  | nil =>
    rw [dictInsert, lookup_cons_eq]
  | cons p t ih =>
    obtain ⟨a, b⟩ := p
    rw [dictInsert]
    by_cases hak : a = k
    · subst hak
      rw [if_pos rfl, lookup_cons_eq, lookup_cons_eq]
      by_cases h : n = a <;> simp [h]
    · have hka : ¬ k = a := fun h => hak h.symm
      rw [if_neg hak, lookup_cons_eq, lookup_cons_eq, ih]
      by_cases h1 : n = a <;> by_cases h2 : n = k
      · exact absurd (h1.symm.trans h2) hak
      · simp [h1, h2, hak]
      · simp [h1, h2, hka]
      · simp [h1, h2]

theorem lookup_foldl_dictInsert (n : Nat) :
    ∀ (l : List (Nat × List Char)) (d : List (Nat × List Char)),
    (l.foldl (fun d p => dictInsert d p.1 (pyStrip p.2)) d).lookup n =
      match (l.filter (fun p => p.1 == n)).getLast? with
      | some q => some (pyStrip q.2)
      | none => d.lookup n := by
  intro l
  induction l with
  | nil => intro d; rfl
  | cons p t ih =>
    intro d
    rw [List.foldl_cons, ih, List.filter_cons]
    by_cases hp : p.1 = n
    · have hb : (p.1 == n) = true := by simp [hp]
      rw [hb, if_pos rfl]
      cases htf : (t.filter (fun p => p.1 == n)).getLast? with
      | some q =>
        have : (p :: t.filter (fun p => p.1 == n)).getLast? = some q := by
          cases hft : t.filter (fun p => p.1 == n) with
          | nil => rw [hft] at htf; simp at htf
          | cons x xs =>
            rw [hft] at htf
            rw [List.getLast?_cons_cons]
            exact htf
        rw [this]
      | none =>
        have hnil : t.filter (fun p => p.1 == n) = [] :=
          List.getLast?_eq_none_iff.mp htf
        rw [hnil]
        have : ([p] : List (Nat × List Char)).getLast? = some p := rfl
        rw [this, dictInsert_lookup]
        rw [if_pos hp.symm]
    · have hb : (p.1 == n) = false := by simp [hp]
      rw [hb]
      simp only [Bool.false_eq_true, if_false]
      cases htf : (t.filter (fun p => p.1 == n)).getLast? with
      | some q => rfl
      | none =>
        rw [dictInsert_lookup, if_neg (fun h => hp (h.symm))]

/-- Claim C10 (implicit): when two page sections carry the same page number,
the parser's dictionary entry for that number is the stripped content of the
later (last-matched) occurrence — duplicates overwrite, they are neither
rejected nor an error. -/
theorem C10_duplicate_overwrite (s : List Char) (n : Nat) (q : Nat × List Char)
    (hlast : ((findall s).filter (fun p => p.1 == n)).getLast? = some q)
    (hdup : 2 ≤ ((findall s).filter (fun p => p.1 == n)).length) :
    (parse_markdown_by_pages s).lookup n = some (pyStrip q.2) := by
  unfold parse_markdown_by_pages
  rw [lookup_foldl_dictInsert, hlast]

theorem C10_duplicate_overwrite_witness :
    (parse_markdown_by_pages exDupDoc).lookup 1 = some (pyStrip (S "B")) :=
  C10_duplicate_overwrite exDupDoc 1 (1, S "B") (by rfl) (by decide)

/-! ## Window totality -/

theorem window_range_mem_bounds {total i p : Nat} (h1 : 1 ≤ i) (h2 : i ≤ total)
    (hp : p ∈ window_range total i) : 1 ≤ p ∧ p ≤ total := by
  rw [window_range, List.mem_range'_1] at hp
  unfold window_start window_end at hp
  omega

theorem lookup_isSome_iff {β : Type} (l : List (Nat × β)) (k : Nat) :
    (l.lookup k).isSome = true ↔ k ∈ l.map Prod.fst := by
  induction l with
  | nil => simp [List.lookup]
  | cons p t ih =>
    obtain ⟨a, b⟩ := p
    rw [List.map_cons, lookup_cons_eq]
    by_cases h : k = a <;> simp [h, ih]

theorem windowBlocks_ok (pages : List (Nat × List Char)) :
    ∀ (ps : List Nat), (∀ p ∈ ps, (pages.lookup p).isSome = true) →
    ∃ bs, windowBlocks pages ps = .ok bs := by
  intro ps
  induction ps with
  | nil => exact fun _ => ⟨[], rfl⟩
  | cons p t ih =>
    intro hall
    obtain ⟨c, hc⟩ := Option.isSome_iff_exists.mp (hall p (by simp))
    obtain ⟨bs, hbs⟩ := ih (fun q hq => hall q (by simp [hq]))
    refine ⟨(S "## Page " ++ natStr p ++ S "\n\n" ++ c ++ S "\n") :: bs, ?_⟩
    rw [windowBlocks, hc, hbs]

theorem mkWindowCall_ok (pages : List (Nat × List Char)) (total i : Nat)
    (h : ∀ p ∈ window_range total i, (pages.lookup p).isSome = true) :
    ∃ c, mkWindowCall pages total i = .ok c := by
  obtain ⟨bs, hbs⟩ := windowBlocks_ok pages (window_range total i) h
  exact ⟨_, by rw [mkWindowCall, hbs]⟩

theorem runWindows_no_keyError {ε : Type} (svc : ChatCall → Except ε (List Char))
    (pages : List (Nat × List Char)) (total : Nat) :
    ∀ (is : List Nat), (∀ i ∈ is, ∃ c, mkWindowCall pages total i = .ok c) →
    ∀ k, runWindows svc pages total is ≠ .error (.keyError k) := by
  intro is
  induction is with
  | nil =>
    intro _ k h
    rw [runWindows] at h
    exact Except.noConfusion h
  | cons i t ih =>
    intro hall k h
    obtain ⟨c, hc⟩ := hall i (by simp)
    cases hsvc : svc c with
    | error e =>
      rw [runWindows] at h
      simp [hc, hsvc] at h
    | ok resp =>
      cases hrun : runWindows svc pages total t with
      | ok rest =>
        rw [runWindows] at h
        simp [hc, hsvc, hrun] at h
      | error err =>
        rw [runWindows] at h
        simp [hc, hsvc, hrun] at h
        exact ih (fun j hj => hall j (by simp [hj])) k (by rw [hrun, h])

/-- Claim C9 (implicit): the sliding-window loop looks pages up by raw page
number; whenever the parsed map's key set is exactly `{1, ..., P}` with `P`
the map's size, every window lookup succeeds (the `KeyError` branch is
unreachable), so the strategy never aborts with a key error. -/
theorem C9_window_lookups_total {ε : Type} (svc : ChatCall → Except ε (List Char))
    (md : List Char)
    (hcont : ((parse_markdown_by_pages md).map Prod.fst).Perm
      (List.range' 1 (parse_markdown_by_pages md).length)) :
    (∀ i, 1 ≤ i → i ≤ (parse_markdown_by_pages md).length →
      ∃ c, mkWindowCall (parse_markdown_by_pages md)
            (parse_markdown_by_pages md).length i = .ok c) ∧
    (∀ k, extract_rules_from_markdown_sliding_window svc md ≠
      .error (Stage2Err.keyError k)) := by
  have hlook : ∀ p, 1 ≤ p → p ≤ (parse_markdown_by_pages md).length →
      ((parse_markdown_by_pages md).lookup p).isSome = true := by
    intro p h1 h2
    rw [lookup_isSome_iff, hcont.mem_iff, List.mem_range'_1]
    omega
  have hmk : ∀ i, 1 ≤ i → i ≤ (parse_markdown_by_pages md).length →
      ∃ c, mkWindowCall (parse_markdown_by_pages md)
            (parse_markdown_by_pages md).length i = .ok c := by
    intro i h1 h2
    apply mkWindowCall_ok
    intro p hpmem
    have hb := window_range_mem_bounds h1 h2 hpmem
    exact hlook p hb.1 hb.2
  refine ⟨hmk, ?_⟩
  intro k
  simp only [extract_rules_from_markdown_sliding_window]
  by_cases h3 : (parse_markdown_by_pages md).length ≤ 3
  · rw [if_pos h3]
    cases hsp : extract_rules_from_markdown_single_pass svc md with
    | ok r => simp
    | error e => simp
  · rw [if_neg h3]
    have hall : ∀ i ∈ List.range' 1 (parse_markdown_by_pages md).length,
        ∃ c, mkWindowCall (parse_markdown_by_pages md)
              (parse_markdown_by_pages md).length i = .ok c := by
      intro i hi
      rw [List.mem_range'_1] at hi
      exact hmk i hi.1 (by omega)
    simp only [sliding_window_main]
    cases hrun : runWindows svc (parse_markdown_by_pages md)
        (parse_markdown_by_pages md).length
        (List.range' 1 (parse_markdown_by_pages md).length) with
    | error err =>
      cases err with
      | svcFail e => simp
      | keyError k' => exact absurd hrun (by
          intro hcontra
          exact runWindows_no_keyError svc _ _ _ hall k' hcontra)
    | ok ws =>
      cases hsvc : svc (consolidation_call (parse_markdown_by_pages md).length
          (ws.map Prod.snd)) with
      | error e => simp [hsvc]
      | ok final => simp [hsvc]

theorem C9_window_lookups_total_witness :
    extract_rules_from_markdown_sliding_window exChatOk ex4doc ≠
      .error (Stage2Err.keyError 0) :=
  (C9_window_lookups_total exChatOk ex4doc (by decide)).2 0

/-! ## Structure of a successful sliding-window run -/

theorem runWindows_ok {ε : Type} (svc : ChatCall → Except ε (List Char))
    (pages : List (Nat × List Char)) (total : Nat) :
    ∀ (is : List Nat) (ws : List (ChatCall × List Char)),
    runWindows svc pages total is = .ok ws →
    List.Forall₂ (fun i (cw : ChatCall × List Char) =>
      mkWindowCall pages total i = .ok cw.1 ∧ svc cw.1 = .ok cw.2) is ws := by
  intro is
  induction is with
  | nil =>
    intro ws h
    rw [runWindows] at h
    rw [← Except.ok.inj h]
    exact List.Forall₂.nil
  | cons i t ih =>
    intro ws h
    rw [runWindows] at h
    cases hmk : mkWindowCall pages total i with
    | error k => simp [hmk] at h
    | ok call =>
      cases hsvc : svc call with
      | error e => simp [hmk, hsvc] at h
      | ok resp =>
        cases hrun : runWindows svc pages total t with
        | error err => simp [hmk, hsvc, hrun] at h
        | ok rest =>
          simp only [hmk, hsvc, hrun] at h
          rw [← Except.ok.inj h]
          exact List.Forall₂.cons ⟨hmk, hsvc⟩ (ih rest hrun)

theorem forall₂_right_mem {α β : Type} {P : α → β → Prop} :
    ∀ {l : List α} {l' : List β}, List.Forall₂ P l l' → ∀ b ∈ l', ∃ a, P a b := by
  intro l l' h
  induction h with
  | nil => intro b hb; exact absurd hb (List.not_mem_nil b)
  | cons hp _ ih =>
    intro b hb
    rcases List.mem_cons.mp hb with h1 | h2
    · exact ⟨_, h1 ▸ hp⟩
    · exact ih b h2

theorem forall₂_map_pair {Q : ChatCall → List Char → Prop} :
    ∀ (ws : List (ChatCall × List Char)), (∀ cw ∈ ws, Q cw.1 cw.2) →
    List.Forall₂ Q (ws.map Prod.fst) (ws.map Prod.snd) := by
  intro ws
  induction ws with
  | nil => exact fun _ => List.Forall₂.nil
  | cons cw t ih =>
    intro hall
    exact List.Forall₂.cons (hall cw (by simp))
      (ih (fun x hx => hall x (by simp [hx])))

theorem forall₂_map_fst_of {P : Nat → ChatCall × List Char → Prop}
    {Q : Nat → ChatCall → Prop} (hPQ : ∀ i cw, P i cw → Q i cw.1) :
    ∀ {is : List Nat} {ws : List (ChatCall × List Char)}, List.Forall₂ P is ws →
    List.Forall₂ Q is (ws.map Prod.fst) := by
  intro is ws h
  induction h with
  | nil => exact List.Forall₂.nil
  | cons hp _ ih => exact List.Forall₂.cons (hPQ _ _ hp) ih

/-- Claim C7: a sliding-window run over a `P`-page document (`P > 3`) that
returns a report issued exactly `P` window-analysis calls plus one final
consolidation call, `P + 1` in total; the consolidation request carries all
`P` window reports labeled by window index in window (= page) order (that is
what `consolidation_call` builds); a single-pass run issues exactly the one
analysis call and no consolidation call. -/
theorem C7_call_counts {ε : Type} (svc : ChatCall → Except ε (List Char))
    (md : List Char) :
    (∀ r log, 3 < (parse_markdown_by_pages md).length →
      extract_rules_from_markdown_sliding_window svc md = .ok (r, log) →
      ∃ calls reports,
        log.length = (parse_markdown_by_pages md).length + 1 ∧
        calls.length = (parse_markdown_by_pages md).length ∧
        reports.length = (parse_markdown_by_pages md).length ∧
        log = calls ++ [consolidation_call (parse_markdown_by_pages md).length reports] ∧
        List.Forall₂ (fun i c => mkWindowCall (parse_markdown_by_pages md)
            (parse_markdown_by_pages md).length i = .ok c)
          (List.range' 1 (parse_markdown_by_pages md).length) calls ∧
        List.Forall₂ (fun (c : ChatCall) rep => svc c = .ok rep) calls reports) ∧
    (∀ r log, extract_rules_from_markdown_single_pass svc md = .ok (r, log) →
      log = [single_pass_call md]) := by
  constructor
  · intro r log h3 hok
    simp only [extract_rules_from_markdown_sliding_window] at hok
    rw [if_neg (by omega)] at hok
    simp only [sliding_window_main] at hok
    cases hrun : runWindows svc (parse_markdown_by_pages md)
        (parse_markdown_by_pages md).length
        (List.range' 1 (parse_markdown_by_pages md).length) with
    | error err => rw [hrun] at hok; simp at hok
    | ok ws =>
      simp only [hrun] at hok
      cases hcons : svc (consolidation_call (parse_markdown_by_pages md).length
          (ws.map Prod.snd)) with
      | error e => simp [hcons] at hok
      | ok final =>
        simp only [hcons, Except.ok.injEq, Prod.mk.injEq] at hok
        have hlog : log = ws.map Prod.fst ++
            [consolidation_call (parse_markdown_by_pages md).length (ws.map Prod.snd)] :=
          hok.2.symm
        have hF := runWindows_ok svc _ _ _ ws hrun
        have hlen : ws.length = (parse_markdown_by_pages md).length := by
          have := hF.length_eq
          rw [List.length_range'] at this
          exact this.symm
        refine ⟨ws.map Prod.fst, ws.map Prod.snd, ?_, ?_, ?_, hlog, ?_, ?_⟩
        · rw [hlog, List.length_append, List.length_map, hlen]; rfl
        · rw [List.length_map, hlen]
        · rw [List.length_map, hlen]
        · exact forall₂_map_fst_of (fun i cw hp => hp.1) hF
        · apply forall₂_map_pair
          intro cw hcw
          obtain ⟨i, hi⟩ := forall₂_right_mem hF cw hcw
          exact hi.2
  · intro r log hok
    unfold extract_rules_from_markdown_single_pass at hok
    cases hsp : svc (single_pass_call md) with
    | error e => rw [hsp] at hok; simp at hok
    | ok rep =>
      rw [hsp] at hok
      exact (congrArg Prod.snd (Except.ok.inj hok)).symm

theorem runWindows_append {ε : Type} (svc : ChatCall → Except ε (List Char))
    (pages : List (Nat × List Char)) (total : Nat) :
    ∀ (is js : List Nat),
    runWindows svc pages total (is ++ js) =
      match runWindows svc pages total is with
      | .error err => .error err
      | .ok ws =>
        match runWindows svc pages total js with
        | .error err => .error err
        | .ok ws' => .ok (ws ++ ws') := by
  intro is js
  induction is with
  | nil =>
    simp only [List.nil_append, runWindows]
    cases hjs : runWindows svc pages total js with
    | error err => simp [hjs]
    | ok ws' => simp [hjs]
  | cons i t ih =>
    rw [List.cons_append]
    cases hmk : mkWindowCall pages total i with
    | error k => simp [runWindows, hmk]
    | ok call =>
      cases hsvc : svc call with
      | error e => simp [runWindows, hmk, hsvc]
      | ok resp =>
        cases hrt : runWindows svc pages total t with
        | error err => simp [runWindows, hmk, hsvc, ih, hrt]
        | ok wst =>
          cases hjs : runWindows svc pages total js with
          | error err => simp [runWindows, hmk, hsvc, ih, hrt, hjs]
          | ok wsj => simp [runWindows, hmk, hsvc, ih, hrt, hjs]

/-- Claim C8: a failure of the analysis service propagates and aborts the
whole stage-2 invocation with no result: if the single-pass call raises, the
single-pass function raises; if the call for window `k` raises (all earlier
windows having succeeded), the sliding-window invocation returns that error;
if the consolidation call raises, the invocation returns that error.  No
per-window failure marker or partial report is ever produced: the result of
a stage-2 invocation is either one complete report or a single error. -/
theorem C8_failure_propagation {ε : Type} (svc : ChatCall → Except ε (List Char))
    (md : List Char) :
    (∀ e, svc (single_pass_call md) = .error e →
      extract_rules_from_markdown_single_pass svc md = .error e) ∧
    (∀ k c e ws, 3 < (parse_markdown_by_pages md).length →
      1 ≤ k → k ≤ (parse_markdown_by_pages md).length →
      runWindows svc (parse_markdown_by_pages md)
        (parse_markdown_by_pages md).length (List.range' 1 (k - 1)) = .ok ws →
      mkWindowCall (parse_markdown_by_pages md)
        (parse_markdown_by_pages md).length k = .ok c →
      svc c = .error e →
      extract_rules_from_markdown_sliding_window svc md =
        .error (Stage2Err.svcFail e)) ∧
    (∀ ws e, 3 < (parse_markdown_by_pages md).length →
      runWindows svc (parse_markdown_by_pages md)
        (parse_markdown_by_pages md).length
        (List.range' 1 (parse_markdown_by_pages md).length) = .ok ws →
      svc (consolidation_call (parse_markdown_by_pages md).length
        (ws.map Prod.snd)) = .error e →
      extract_rules_from_markdown_sliding_window svc md =
        .error (Stage2Err.svcFail e)) := by
  refine ⟨?_, ?_, ?_⟩
  · intro e he
    unfold extract_rules_from_markdown_single_pass
    rw [he]
  · intro k c e ws h3 hk1 hk2 hpre hmk hsvc
    simp only [extract_rules_from_markdown_sliding_window]
    rw [if_neg (by omega)]
    simp only [sliding_window_main]
    have hsplit : List.range' 1 (k - 1) ++
        List.range' k ((parse_markdown_by_pages md).length - (k - 1)) =
        List.range' 1 (parse_markdown_by_pages md).length := by
      have h := List.range'_append_1 1 (k - 1)
        ((parse_markdown_by_pages md).length - (k - 1))
      rw [show 1 + (k - 1) = k by omega] at h
      rw [h, show (parse_markdown_by_pages md).length - (k - 1) + (k - 1) =
        (parse_markdown_by_pages md).length by omega]
    rw [← hsplit, runWindows_append, hpre]
    have hn : (parse_markdown_by_pages md).length - (k - 1) =
        ((parse_markdown_by_pages md).length - k) + 1 := by omega
    rw [hn, List.range'_succ]
    simp [runWindows, hmk, hsvc]
  · intro ws e h3 hrun hcons
    simp only [extract_rules_from_markdown_sliding_window]
    rw [if_neg (by omega)]
    simp only [sliding_window_main, hrun, hcons]

theorem C8_failure_propagation_witness :
    extract_rules_from_markdown_sliding_window exChatFail ex4doc =
      .error (Stage2Err.svcFail (S "down")) :=
  (C8_failure_propagation exChatFail ex4doc).2.1 1 exW1call (S "down") []
    (by decide) (by decide) (by decide) (by rfl) (by rfl) (by rfl)

theorem C7_call_counts_witness :
    ∃ calls reports,
      ex4log.length = (parse_markdown_by_pages ex4doc).length + 1 ∧
      calls.length = (parse_markdown_by_pages ex4doc).length ∧
      reports.length = (parse_markdown_by_pages ex4doc).length ∧
      ex4log = calls ++
        [consolidation_call (parse_markdown_by_pages ex4doc).length reports] ∧
      List.Forall₂ (fun i c => mkWindowCall (parse_markdown_by_pages ex4doc)
          (parse_markdown_by_pages ex4doc).length i = .ok c)
        (List.range' 1 (parse_markdown_by_pages ex4doc).length) calls ∧
      List.Forall₂ (fun (c : ChatCall) rep => exChatOk c = .ok rep) calls reports :=
  (C7_call_counts exChatOk ex4doc).1 (S "R") ex4log (by decide) (by rfl)

/-! ## Parser grammar lemmas -/

theorem prefix_of_prefix_append {l X t : List Char} (h : l <+: X ++ t)
    (hl : l.length ≤ X.length) : l <+: X := by
  rw [List.prefix_iff_eq_take] at h
  rw [List.take_append_of_le_length hl] at h
  exact List.prefix_iff_eq_take.mpr h

theorem prefix_append_of_prefix {l X : List Char} (t : List Char) (h : l <+: X) :
    l <+: X ++ t :=
  h.trans (List.prefix_append X t)

theorem takeContent_spec : ∀ (l : List Char),
    l = (takeContent l).1 ++ (takeContent l).2 ∧
    ((takeContent l).2 = [] ∨ sepStr <+: (takeContent l).2) ∧
    (∀ j, j < (takeContent l).1.length → ¬ sepStr <+: l.drop j) := by
  intro l
  induction l with
  | nil =>
    refine ⟨rfl, Or.inl rfl, ?_⟩
    intro j hj
    simp [takeContent] at hj
  | cons c cs ih =>
    by_cases h : sepStr <+: (c :: cs)
    · have htc : takeContent (c :: cs) = ([], c :: cs) := by
        rw [takeContent, if_pos h]
      refine ⟨by rw [htc]; rfl, by rw [htc]; exact Or.inr h, ?_⟩
      intro j hj
      rw [htc] at hj
      simp at hj
    · have htc : takeContent (c :: cs) =
          (c :: (takeContent cs).1, (takeContent cs).2) := by
        rw [takeContent, if_neg h]
      refine ⟨?_, ?_, ?_⟩
      · rw [htc, List.cons_append]
        exact congrArg (List.cons c) ih.1
      · rw [htc]
        exact ih.2.1
      · intro j hj
        rw [htc, List.length_cons] at hj
        cases j with
        | zero =>
          rw [List.drop_zero]
          exact h
        | succ j' =>
          rw [List.drop_succ_cons]
          exact ih.2.2 j' (by omega)

theorem findallF_content_no_sep : ∀ (f : Nat) (s : List Char) (n : Nat) (c : List Char),
    (n, c) ∈ findallF f s → ∀ j, j < c.length → ¬ sepStr <+: c.drop j := by
  intro f
  induction f with
  | zero => intro s n c h; simp [findallF] at h
  | succ f ih =>
    intro s n c h
    cases s with
    | nil => simp [findallF] at h
    | cons a as =>
      cases hmh : matchHeader (a :: as) with
      | none =>
        rw [findallF, hmh] at h
        exact ih as n c h
      | some pr =>
        obtain ⟨m, rest⟩ := pr
        rw [findallF, hmh] at h
        rcases List.mem_cons.mp h with heq | hmem
        · obtain ⟨hnm, hc⟩ := Prod.mk.inj heq
          intro j hj hpre
          have hspec := (takeContent_spec rest).2.2 j (by rw [← hc]; exact hj)
          apply hspec
          have h1 : rest = (takeContent rest).1 ++ (takeContent rest).2 :=
            (takeContent_spec rest).1
          rw [h1, List.drop_append_of_le_length (by rw [← hc]; omega)]
          exact prefix_append_of_prefix _ (hc ▸ hpre)
        · exact ih _ n c hmem

/-- Claim C3 fails on the code: for the input
`"## Page 1\n\nA\n\n## Page 2\n\nB"` — two consecutive headers with no
inter-page separator between them — the first page's content does not end
where the second header begins: the regex lookahead only stops at
`\n\n---\n\n` or end of input, so page 1 swallows the second header and
page 2 does not appear in the returned map. -/
theorem C3_page_boundaries_counterexample :
    parse_markdown_by_pages exNoSepDoc = [(1, S "A\n\n## Page 2\n\nB")] ∧
    (parse_markdown_by_pages exNoSepDoc).lookup 2 = none := by
  exact ⟨by decide, by decide⟩

/-- Claim C3, amended: a page begins at a `## Page <N>` header token and its
content ends at the first following inter-page separator `\n\n---\n\n` or at
end of input — not at the next header token.  In general no emitted page
content has the separator starting anywhere inside it; two consecutive
headers with no separator between them collapse into a single page that
absorbs the second header, while with a separator between them both pages
appear. -/
theorem C3_page_boundaries_amended :
    (∀ (s : List Char) (n : Nat) (c : List Char), (n, c) ∈ findall s →
      ∀ j, j < c.length → ¬ sepStr <+: c.drop j) ∧
    parse_markdown_by_pages exNoSepDoc = [(1, S "A\n\n## Page 2\n\nB")] ∧
    parse_markdown_by_pages exSepDoc = [(1, S "A"), (2, S "B")] := by
  refine ⟨?_, by decide, by decide⟩
  intro s n c h
  exact findallF_content_no_sep s.length s n c h

theorem C3_page_boundaries_amended_witness :
    ¬ sepStr <+: (S "A\n\n## Page 2\n\nB").drop 3 :=
  C3_page_boundaries_amended.1 exNoSepDoc 1 (S "A\n\n## Page 2\n\nB")
    (by decide) 3 (by decide)

/-! ## Decimal rendering lemmas -/

theorem digitChar_isDigit : ∀ d, d < 10 → (Char.ofNat (48 + d)).isDigit = true := by decide

theorem digitChar_toNat : ∀ d, d < 10 → (Char.ofNat (48 + d)).toNat = 48 + d := by decide

theorem natDigitsAux_digits : ∀ (f n : Nat), ∀ c ∈ natDigitsAux f n, c.isDigit = true := by
  intro f
  induction f with
  | zero =>
    intro n c hc
    cases n with
    | zero => simp [natDigitsAux] at hc
    | succ m => simp [natDigitsAux] at hc
  | succ f ih =>
    intro n c hc
    cases n with
    | zero => simp [natDigitsAux] at hc
    | succ m =>
      rw [natDigitsAux] at hc
      rcases List.mem_append.mp hc with h | h
      · exact ih _ c h
      · rw [List.mem_singleton] at h
        subst h
        exact digitChar_isDigit _ (Nat.mod_lt _ (by omega))

theorem natDigitsAux_ne_nil (f m : Nat) : natDigitsAux (f + 1) (m + 1) ≠ [] := by
  rw [natDigitsAux]
  simp

theorem natStr_ne_nil (k : Nat) : natStr k ≠ [] := by
  cases k with
  | zero => simp [natStr]
  | succ m =>
    rw [natStr, if_neg (Nat.succ_ne_zero m)]
    exact natDigitsAux_ne_nil m m

theorem natStr_digits (k : Nat) : ∀ c ∈ natStr k, c.isDigit = true := by
  cases k with
  | zero =>
    intro c hc
    rw [natStr, if_pos rfl] at hc
    rw [List.mem_singleton] at hc
    subst hc
    decide
  | succ m =>
    intro c hc
    rw [natStr, if_neg (Nat.succ_ne_zero m)] at hc
    exact natDigitsAux_digits _ _ c hc

theorem natOfDigits_append (l : List Char) (c : Char) :
    natOfDigits (l ++ [c]) = 10 * natOfDigits l + (c.toNat - 48) := by
  unfold natOfDigits
  rw [List.foldl_append]
  rfl

theorem natOfDigits_natDigitsAux : ∀ (f n : Nat), n ≤ f →
    natOfDigits (natDigitsAux f n) = n := by
  intro f
  induction f with
  | zero =>
    intro n h
    have hn : n = 0 := by omega
    subst hn
    rfl
  | succ f ih =>
    intro n h
    cases n with
    | zero => rfl
    | succ m =>
      rw [natDigitsAux, natOfDigits_append]
      have hd : (m + 1) / 10 ≤ f := by
        have := Nat.div_lt_self (Nat.succ_pos m) (by omega : 1 < 10)
        omega
      rw [ih ((m + 1) / 10) hd]
      rw [digitChar_toNat _ (Nat.mod_lt _ (by omega))]
      omega

theorem natOfDigits_natStr (k : Nat) : natOfDigits (natStr k) = k := by
  cases k with
  | zero => decide
  | succ m =>
    rw [natStr, if_neg (Nat.succ_ne_zero m)]
    exact natOfDigits_natDigitsAux _ _ (le_refl _)

theorem takeWhile_append_all {p : Char → Bool} :
    ∀ (l l' : List Char), (∀ x ∈ l, p x = true) →
    (l ++ l').takeWhile p = l ++ l'.takeWhile p := by
  intro l
  induction l with
  | nil => intro l' _; simp
  | cons a t ih =>
    intro l' hall
    have hpa := hall a (by simp)
    rw [List.cons_append, List.takeWhile_cons, hpa]
    rw [ih l' (fun x hx => hall x (by simp [hx]))]
    simp

theorem dropWhile_append_all {p : Char → Bool} :
    ∀ (l l' : List Char), (∀ x ∈ l, p x = true) →
    (l ++ l').dropWhile p = l'.dropWhile p := by
  intro l
  induction l with
  | nil => intro l' _; simp
  | cons a t ih =>
    intro l' hall
    have hpa := hall a (by simp)
    rw [List.cons_append, List.dropWhile_cons, hpa]
    rw [ih l' (fun x hx => hall x (by simp [hx]))]
    simp

theorem matchHeader_render (k : Nat) (u : List Char) :
    matchHeader (headerStr ++ (natStr k ++ ('\n' :: '\n' :: u))) = some (k, u) := by
  rw [matchHeader, if_pos (List.prefix_append _ _)]
  have hdrop : (headerStr ++ (natStr k ++ ('\n' :: '\n' :: u))).drop 8 =
      natStr k ++ ('\n' :: '\n' :: u) := by
    rw [show (8 : Nat) = headerStr.length from rfl, List.drop_left]
  rw [hdrop]
  have htw : (natStr k ++ ('\n' :: '\n' :: u)).takeWhile Char.isDigit = natStr k := by
    rw [takeWhile_append_all _ _ (natStr_digits k)]
    rw [List.takeWhile_cons]
    simp
  have hdw : (natStr k ++ ('\n' :: '\n' :: u)).dropWhile Char.isDigit =
      '\n' :: '\n' :: u := by
    rw [dropWhile_append_all _ _ (natStr_digits k)]
    rw [List.dropWhile_cons]
    simp
  rw [htw, hdw, if_neg (natStr_ne_nil k)]
  rw [if_pos (show newline2 <+: '\n' :: '\n' :: u from ⟨u, rfl⟩)]
  rw [natOfDigits_natStr]
  rfl

/-! ## Lazy-content and scanning lemmas -/

theorem takeContent_append_sep : ∀ (c t : List Char),
    (∀ j, j < c.length → ¬ sepStr <+: (c ++ sepStr).drop j) →
    takeContent (c ++ (sepStr ++ t)) = (c, sepStr ++ t) := by
  intro c
  induction c with
  | nil =>
    intro t _
    rw [List.nil_append]
    cases hs : sepStr ++ t with
    | nil => exact absurd (congrArg List.length hs) (by simp [sepStr, S])
    | cons a as =>
      rw [takeContent, if_pos (hs ▸ List.prefix_append sepStr t)]
  | cons x c' ih =>
    intro t hns
    rw [List.cons_append]
    have hnp : ¬ sepStr <+: x :: (c' ++ (sepStr ++ t)) := by
      intro hp
      apply hns 0 (by simp)
      rw [List.drop_zero]
      have hx : x :: (c' ++ (sepStr ++ t)) = ((x :: c') ++ sepStr) ++ t := by
        simp [List.append_assoc]
      rw [hx] at hp
      exact prefix_of_prefix_append hp (by simp; omega)
    rw [takeContent, if_neg hnp]
    have ih' := ih t (fun j hj => by
      have := hns (j + 1) (by simp; omega)
      rw [List.cons_append, List.drop_succ_cons] at this
      exact this)
    rw [ih']

theorem matchHeader_not_hash {a : Char} {as : List Char} (h : a ≠ '#') :
    matchHeader (a :: as) = none := by
  rw [matchHeader, if_neg]
  intro hp
  obtain ⟨t, ht⟩ := hp
  rw [show headerStr = '#' :: S "# Page " from rfl, List.cons_append] at ht
  injection ht with h1 _
  exact h h1.symm

theorem matchHeader_rest_length {s r : List Char} {n : Nat}
    (h : matchHeader s = some (n, r)) : r.length + 11 ≤ s.length := by
  rw [matchHeader] at h
  by_cases hp : headerStr <+: s
  · rw [if_pos hp] at h
    by_cases hds : (s.drop 8).takeWhile Char.isDigit = []
    · rw [if_pos hds] at h
      exact absurd h (by simp)
    · rw [if_neg hds] at h
      by_cases hnl : newline2 <+: (s.drop 8).dropWhile Char.isDigit
      · rw [if_pos hnl] at h
        have hr : r = ((s.drop 8).dropWhile Char.isDigit).drop 2 :=
          ((Prod.mk.inj (Option.some.inj h)).2).symm
        have h8 : 8 ≤ s.length := by
          have := hp.length_le
          simpa using this
        have hsplit : (s.drop 8).takeWhile Char.isDigit ++
            (s.drop 8).dropWhile Char.isDigit = s.drop 8 :=
          List.takeWhile_append_dropWhile _ _
        have hlen := congrArg List.length hsplit
        rw [List.length_append, List.length_drop] at hlen
        have hds1 : 1 ≤ ((s.drop 8).takeWhile Char.isDigit).length := by
          cases hcase : (s.drop 8).takeWhile Char.isDigit with
          | nil => exact absurd hcase hds
          | cons _ _ => simp
        have hnl2 : 2 ≤ ((s.drop 8).dropWhile Char.isDigit).length := by
          have := hnl.length_le
          simpa using this
        have hrl : r.length = ((s.drop 8).dropWhile Char.isDigit).length - 2 := by
          rw [hr, List.length_drop]
        omega
      · rw [if_neg hnl] at h
        exact absurd h (by simp)
  · rw [if_neg hp] at h
    exact absurd h (by simp)

theorem takeContent_snd_length : ∀ (l : List Char),
    (takeContent l).2.length ≤ l.length := by
  intro l
  induction l with
  | nil => simp [takeContent]
  | cons c cs ih =>
    by_cases h : sepStr <+: (c :: cs)
    · rw [takeContent, if_pos h]
    · rw [takeContent, if_neg h]
      simp only [List.length_cons]
      exact Nat.le_succ_of_le ih

theorem findallF_fuel : ∀ (N : Nat) (s : List Char) (f₁ f₂ : Nat),
    s.length ≤ N → s.length ≤ f₁ → s.length ≤ f₂ →
    findallF f₁ s = findallF f₂ s := by
  intro N
  induction N with
  | zero =>
    intro s f₁ f₂ hN _ _
    have hs : s = [] := List.length_eq_zero.mp (Nat.le_zero.mp hN)
    subst hs
    cases f₁ <;> cases f₂ <;> rfl
  | succ N ih =>
    intro s f₁ f₂ hN h1 h2
    cases s with
    | nil => cases f₁ <;> cases f₂ <;> rfl
    | cons a as =>
      rw [List.length_cons] at hN h1 h2
      cases f₁ with
      | zero => omega
      | succ g₁ =>
        cases f₂ with
        | zero => omega
        | succ g₂ =>
          rw [findallF, findallF]
          cases hmh : matchHeader (a :: as) with
          | none =>
            simp only [hmh]
            exact ih as g₁ g₂ (by omega) (by omega) (by omega)
          | some pr =>
            obtain ⟨n, rest⟩ := pr
            simp only [hmh]
            have hrl := matchHeader_rest_length hmh
            rw [List.length_cons] at hrl
            have htc := takeContent_snd_length rest
            congr 1
            exact ih _ g₁ g₂ (by omega) (by omega) (by omega)

theorem findallF_eq_findall (f : Nat) (s : List Char) (h : s.length ≤ f) :
    findallF f s = findall s :=
  findallF_fuel s.length s f s.length (le_refl _) h (le_refl _)

theorem findallF_cons_none {f : Nat} {a : Char} {as : List Char}
    (h : matchHeader (a :: as) = none) :
    findallF (f + 1) (a :: as) = findallF f as := by
  rw [findallF, h]

theorem findallF_header (g : Nat) (s : List Char) (n : Nat) (rest : List Char)
    (hs : s ≠ []) (hm : matchHeader s = some (n, rest)) :
    findallF (g + 1) s =
      (n, (takeContent rest).1) :: findallF g (takeContent rest).2 := by
  cases s with
  | nil => exact absurd rfl hs
  | cons a as => rw [findallF, hm]

theorem findallF_no_hash_append : ∀ (pre : List Char), (∀ c ∈ pre, c ≠ '#') →
    ∀ (f : Nat) (t : List Char),
    findallF (f + pre.length) (pre ++ t) = findallF f t := by
  intro pre
  induction pre with
  | nil => intro _ f t; rw [List.nil_append]; rfl
  | cons a as ih =>
    intro hall f t
    rw [List.cons_append]
    rw [show f + (a :: as).length = (f + as.length) + 1 by simp; omega]
    rw [findallF_cons_none (matchHeader_not_hash (hall a (by simp)))]
    exact ih (fun c hc => hall c (by simp [hc])) f t

/-! ## Round trip: serialize then parse -/

theorem noEarlySep_spec {c : List Char} (h : noEarlySep c = true) :
    ∀ j, j < c.length → ¬ sepStr <+: (c ++ sepStr).drop j := by
  intro j hj
  have hall := List.all_eq_true.mp h j (List.mem_range.mpr hj)
  simpa using hall

theorem serializeFrom_cons_eq (k : Nat) (c : List Char) (t : List (List Char)) :
    serializeFrom k (c :: t) =
      headerStr ++ (natStr k ++ ('\n' :: '\n' ::
        (c ++ (sepStr ++ serializeFrom (k + 1) t)))) := by
  rw [serializeFrom, render_page_block]
  rw [show S "\n\n" = '\n' :: '\n' :: [] from rfl]
  simp [headerStr, List.append_assoc]

theorem findall_serializeFrom : ∀ (cs : List (List Char)) (k f : Nat), 1 ≤ k →
    (∀ c ∈ cs, ∀ j, j < c.length → ¬ sepStr <+: (c ++ sepStr).drop j) →
    (serializeFrom k cs).length ≤ f →
    findallF f (serializeFrom k cs) = enumFrom k cs := by
  intro cs
  induction cs with
  | nil =>
    intro k f _ _ _
    cases f <;> rfl
  | cons c t ih =>
    intro k f hk hns hf
    rw [serializeFrom_cons_eq] at hf ⊢
    have h8 : headerStr.length = 8 := rfl
    have h7 : sepStr.length = 7 := rfl
    have hnat : 1 ≤ (natStr k).length :=
      List.length_pos.mpr (natStr_ne_nil k)
    simp only [List.length_append, List.length_cons, h8, h7] at hf
    cases f with
    | zero => omega
    | succ g =>
      have hne : headerStr ++ (natStr k ++ ('\n' :: '\n' ::
          (c ++ (sepStr ++ serializeFrom (k + 1) t)))) ≠ [] := by
        apply List.length_pos.mp
        rw [List.length_append, h8]
        omega
      rw [findallF_header g _ k (c ++ (sepStr ++ serializeFrom (k + 1) t)) hne
        (matchHeader_render k _)]
      rw [takeContent_append_sep c (serializeFrom (k + 1) t) (hns c (by simp))]
      show (k, c) :: findallF g (sepStr ++ serializeFrom (k + 1) t) =
        (k, c) :: enumFrom (k + 1) t
      congr 1
      have hsep := findallF_no_hash_append sepStr (by decide) (g - 7)
        (serializeFrom (k + 1) t)
      rw [h7] at hsep
      rw [show g = g - 7 + 7 by omega, hsep]
      rw [ih (k + 1) (g - 7) (by omega) (fun x hx => hns x (by simp [hx])) (by omega)]

theorem enumFrom_map_fst {α : Type} : ∀ (l : List α) (k : Nat),
    (enumFrom k l).map Prod.fst = List.range' k l.length := by
  intro l
  induction l with
  | nil => intro k; rfl
  | cons x t ih =>
    intro k
    rw [enumFrom, List.map_cons, ih, List.length_cons, List.range'_succ]

theorem enumFrom_length {α : Type} : ∀ (l : List α) (k : Nat),
    (enumFrom k l).length = l.length := by
  intro l
  induction l with
  | nil => intro k; rfl
  | cons x t ih =>
    intro k
    rw [enumFrom, List.length_cons, List.length_cons, ih]

theorem enumFrom_lookup : ∀ (l : List (List Char)) (k j : Nat), k ≤ j →
    j < k + l.length → (enumFrom k l).lookup j = some (l.getD (j - k) []) := by
  intro l
  induction l with
  | nil => intro k j h1 h2; rw [List.length_nil] at h2; omega
  | cons c t ih =>
    intro k j h1 h2
    rw [enumFrom, lookup_cons_eq]
    by_cases hk : j = k
    · subst hk
      rw [if_pos rfl, Nat.sub_self, List.getD_cons_zero]
    · rw [if_neg hk]
      rw [List.length_cons] at h2
      rw [ih (k + 1) j (by omega) (by omega)]
      rw [show j - k = (j - (k + 1)) + 1 by omega, List.getD_cons_succ]

theorem dictInsert_not_mem (d : List (Nat × List Char)) (k : Nat) (v : List Char)
    (h : ∀ q ∈ d, q.1 ≠ k) : dictInsert d k v = d ++ [(k, v)] := by
  induction d with
  | nil => rfl
  | cons q t ih =>
    obtain ⟨a, b⟩ := q
    rw [dictInsert, if_neg (h (a, b) (by simp))]
    rw [ih (fun q hq => h q (by simp [hq])), List.cons_append]

theorem foldl_dictInsert_fresh : ∀ (l d : List (Nat × List Char)),
    (∀ p ∈ l, ∀ q ∈ d, q.1 ≠ p.1) → (l.map Prod.fst).Nodup →
    l.foldl (fun d p => dictInsert d p.1 (pyStrip p.2)) d =
      d ++ l.map (fun p => (p.1, pyStrip p.2)) := by
  intro l
  induction l with
  | nil => intro d _ _; simp
  | cons p t ih =>
    intro d hfresh hnod
    rw [List.foldl_cons]
    rw [dictInsert_not_mem d p.1 (pyStrip p.2) (fun q hq => hfresh p (by simp) q hq)]
    rw [List.map_cons, List.nodup_cons] at hnod
    have hfresh' : ∀ r ∈ t, ∀ q ∈ d ++ [(p.1, pyStrip p.2)], q.1 ≠ r.1 := by
      intro r hr q hq
      rcases List.mem_append.mp hq with hqd | hqp
      · exact hfresh r (by simp [hr]) q hqd
      · rw [List.mem_singleton] at hqp
        subst hqp
        intro heq
        exact hnod.1 (List.mem_map.mpr ⟨r, hr, heq.symm⟩)
    rw [ih (d ++ [(p.1, pyStrip p.2)]) hfresh' hnod.2]
    simp

theorem parse_serialize (cs : List (List Char))
    (h : ∀ c ∈ cs, noEarlySep c = true) :
    parse_markdown_by_pages (serializePages cs) =
      (enumFrom 1 cs).map (fun p => (p.1, pyStrip p.2)) := by
  unfold parse_markdown_by_pages serializePages
  have hfa : findall (serializeFrom 1 cs) = enumFrom 1 cs := by
    rw [show findall (serializeFrom 1 cs) =
      findallF (serializeFrom 1 cs).length (serializeFrom 1 cs) from rfl]
    exact findall_serializeFrom cs 1 _ (by omega)
      (fun c hc => noEarlySep_spec (h c hc)) (le_refl _)
  rw [hfa]
  rw [foldl_dictInsert_fresh (enumFrom 1 cs) []
    (by intro p _ q hq; simp at hq) (by rw [enumFrom_map_fst]; exact List.nodup_range' _ _)]
  rw [List.nil_append]

theorem pdf_text_serialize : ∀ (cs : List (List Char)) (k : Nat)
    (pages : List (Nat × List Char)),
    (∀ j, j < cs.length → pages.lookup (k + j) = some (cs.getD j [])) →
    ((List.range' k cs.length).flatMap (fun i =>
      [S "## Page " ++ natStr i ++ S "\n\n", page_entry pages i,
        S "\n\n---\n\n"])).foldr (fun a b => a ++ b) [] = serializeFrom k cs := by
  intro cs
  induction cs with
  | nil => intro k pages _; rfl
  | cons c t ih =>
    intro k pages hlook
    rw [List.length_cons, List.range'_succ, List.flatMap_cons, List.foldr_append]
    have h0 := hlook 0 (by simp)
    rw [Nat.add_zero, List.getD_cons_zero] at h0
    have hpe : page_entry pages k = c := by
      rw [page_entry, h0]
      rfl
    have hrec : ∀ j, j < t.length → pages.lookup ((k + 1) + j) = some (t.getD j []) := by
      intro j hj
      have := hlook (j + 1) (by rw [List.length_cons]; omega)
      rw [show k + (j + 1) = (k + 1) + j by omega, List.getD_cons_succ] at this
      exact this
    rw [ih (k + 1) pages hrec]
    show (S "## Page " ++ natStr k ++ S "\n\n") ++ (page_entry pages k ++
      (S "\n\n---\n\n" ++ serializeFrom (k + 1) t)) = serializeFrom k (c :: t)
    rw [hpe, serializeFrom, render_page_block]
    rw [show S "\n\n---\n\n" = sepStr from rfl]
    simp [List.append_assoc]

/-- Claim C4 fails on the code as universally stated: for the one-page
document whose content is `"A\n\n---\n\nB"` (it contains the inter-page
separator), serializing and re-parsing gives a map whose entry for page 1 is
`"A"`, which is not the original content stripped of whitespace — the lazy
content group stops at the first separator occurrence, which here lies
inside the page's own content. -/
theorem C4_roundtrip_counterexample :
    parse_markdown_by_pages (serializePages [S "A\n\n---\n\nB"]) = [(1, S "A")] ∧
    pyStrip (S "A\n\n---\n\nB") ≠ S "A" :=
  ⟨by decide, by decide⟩

/-- Claim C4, amended: for every PageDocument of `P` pages all of whose page
contents are separator-clean (the content followed by the separator contains
no occurrence of `"\n\n---\n\n"` before its end — in particular the content
neither contains the separator nor ends with a fragment that completes into
one), serializing with the header/separator grammar and applying
`parse_markdown_by_pages` yields a map with exactly `P` entries, whose entry
for page `i` is that page's original content stripped of leading and
trailing whitespace; moreover the serialization used is exactly the page
loop of `pdf_to_markdown`. -/
theorem C4_roundtrip_amended (cs : List (List Char))
    (h : ∀ c ∈ cs, noEarlySep c = true) :
    parse_markdown_by_pages (serializePages cs) =
      (enumFrom 1 cs).map (fun p => (p.1, pyStrip p.2)) ∧
    (parse_markdown_by_pages (serializePages cs)).length = cs.length ∧
    (parse_markdown_by_pages (serializePages cs)).map Prod.fst =
      List.range' 1 cs.length ∧
    pdf_markdown_text cs.length (enumFrom 1 cs) = serializePages cs := by
  have hps := parse_serialize cs h
  refine ⟨hps, ?_, ?_, ?_⟩
  · rw [hps, List.length_map, enumFrom_length]
  · rw [hps, List.map_map]
    have hcomp : (Prod.fst ∘ fun p : Nat × List Char => (p.1, pyStrip p.2)) =
        Prod.fst := rfl
    rw [hcomp, enumFrom_map_fst]
  · unfold pdf_markdown_text pdf_to_markdown_pages serializePages
    apply pdf_text_serialize cs 1 (enumFrom 1 cs)
    intro j hj
    rw [enumFrom_lookup cs 1 (1 + j) (by omega) (by omega)]
    rw [show 1 + j - 1 = j by omega]

theorem C4_roundtrip_amended_witness :
    (parse_markdown_by_pages (serializePages [S "A", S "B"])).length = 2 :=
  (C4_roundtrip_amended [S "A", S "B"] (by decide)).2.1
